import Mathlib

/-!
# Verification of the CSCE4600 Project1 process schedulers

Shallow embedding of `src/Project1/main.go`: the four scheduling
functions `FCFSSchedule`, `SJFSchedule`, `SJFPrioritySchedule` and
`RRSchedule`, their timeline (`gantt`) and per-process row output, and
the run summary (average wait, average turnaround, throughput).

Modelling conventions:
* Go `int64` values are modelled as unbounded `Int` (the scheduling
  arithmetic of the claims is about the algorithm, not about overflow).
* Go `float64` accumulators (`totalWait`, `totalTurnaround`,
  `lastCompletion`) only ever hold exact integer values converted from
  `int64`, so they are accumulated as `Int` and converted to `ℚ` at the
  final divisions.  The final `float64` divisions are modelled by
  `goDiv`, which returns `none` exactly when the denominator is zero
  (Go produces the non-finite values `NaN`/`±Inf` there) and the exact
  rational quotient otherwise.
* The Go map `remainingBurst` is modelled as a total function
  `Int → Int`: a Go map read of a missing key yields the zero value `0`,
  assignment overrides the function at one key, and `delete` behaves,
  for every read the program performs, exactly like setting the key
  back to `0`.
* Each scheduler state carries a `caller` field holding the caller's
  process slice.  `SJFSchedule`, `SJFPrioritySchedule` and `RRSchedule`
  start by copying the input into a fresh backing array
  (`make` + `copy`, main.go lines 144-145, 218-219, 292-293), so the
  in-place `append(s[:i], s[i+1:]...)` deletions act on `copyProcesses`
  only; no statement of any scheduler assigns to the caller's slice or
  its elements, which the embedding reflects by threading `caller`
  through every step untouched.
* `FCFSSchedule` and `SJFSchedule`/`SJFPrioritySchedule` write their
  row `i` (resp. row `len(processes)-len(copyProcesses)`) exactly once,
  with the written index increasing by one per iteration from zero, so
  their row slice is modelled by appending rows in order.  `RRSchedule`
  overwrites the row at index `len(processes)-len(copyProcesses)` on
  every executed time slice, so there the row slice is modelled as Go
  builds it: a length-`n` list updated in place with `List.set`.
* The `for len(copyProcesses) > 0` outer loops of `SJFSchedule` and
  `SJFPrioritySchedule` remove exactly one process per iteration, so
  they are run with fuel `ps.length`, after which the working list is
  proved empty.  The outer loop of `RRSchedule` does not terminate for
  some inputs (it makes no progress once no pending process has
  arrived), so `RRSchedule` keeps an explicit fuel parameter.
-/

namespace Sched

/-- Go struct `Process` (main.go lines 62-67). -/
structure Process where
  ProcessID : Int
  ArrivalTime : Int
  BurstDuration : Int
  Priority : Int
deriving DecidableEq

/-- Go struct `TimeSlice` (main.go lines 68-72): one Gantt-chart span. -/
structure TimeSlice where
  PID : Int
  Start : Int
  Stop : Int
deriving DecidableEq

/-- One row of the schedule table.  Go stores the row as formatted
strings (main.go lines 105-113); the embedding keeps the numeric values
that are printed. -/
structure Row where
  pid : Int
  priority : Int
  burst : Int
  arrival : Int
  wait : Int
  turnaround : Int
  completion : Int
deriving DecidableEq

/-- Default `Process` used for out-of-range indexing (never reached on
the paths the program takes). -/
def dfltP : Process := ⟨0, 0, 0, 0⟩

/-- Default row: Go's `make([][]string, n)` fills the slice with nil
rows before any assignment. -/
def dfltRow : Row := ⟨0, 0, 0, 0, 0, 0, 0⟩

/-- Default time slice, for out-of-range `getD` only. -/
def dfltT : TimeSlice := ⟨0, 0, 0⟩

/-- Go `float64` division, keeping only finite results: `none` models
the `NaN`/`±Inf` produced when the denominator is `0`. -/
def goDiv (a b : ℚ) : Option ℚ := if b = 0 then none else some (a / b)

/-- The averages/throughput footer (main.go lines 123-126 etc.):
`aveWait = totalWait/count`, `aveTurnaround = totalTurnaround/count`,
`aveThroughput = count/lastCompletion`. -/
structure RunSummary where
  aveWait : Option ℚ
  aveTurnaround : Option ℚ
  aveThroughput : Option ℚ
deriving DecidableEq

/-- Everything one scheduler call produces, plus the caller's slice as
it stands after the call. -/
structure SchedResult where
  rows : List Row
  gantt : List TimeSlice
  summary : RunSummary
  caller : List Process
deriving DecidableEq

/-- Go helper `min` (main.go lines 355-360): `if a < b { return a };
return b`. -/
def goMin (a b : Int) : Int := if a < b then a else b

/-- Build the summary from the final accumulators. -/
def mkSummary (n : Nat) (totalWait totalTurnaround lastCompletion : Int) : RunSummary :=
  { aveWait := goDiv (totalWait : ℚ) (n : ℚ)
    aveTurnaround := goDiv (totalTurnaround : ℚ) (n : ℚ)
    aveThroughput := goDiv (n : ℚ) (lastCompletion : ℚ) }

/-- Go map assignment `m[k] = v`. -/
def mapSet (m : Int → Int) (k v : Int) : Int → Int :=
  fun x => if x = k then v else m x

/-- Go `delete(m, k)`: every later read of `k` yields the zero value. -/
def mapDel (m : Int → Int) (k : Int) : Int → Int :=
  fun x => if x = k then 0 else m x

/-- The `remainingBurst` initialisation loop (main.go lines 147-149,
221-223, 295-297): `remainingBurst[p.ProcessID] = p.BurstDuration` for
each process in order. -/
def initRB (ps : List Process) : Int → Int :=
  ps.foldl (fun m p => mapSet m p.ProcessID p.BurstDuration) (fun _ => 0)

/-! ## FCFS (main.go lines 81-131) -/

/-- The mutable locals of `FCFSSchedule`, plus the caller's slice. -/
structure FCFSState where
  serviceTime : Int
  totalWait : Int
  totalTurnaround : Int
  lastCompletion : Int
  waitingTime : Int
  schedule : List Row
  gantt : List TimeSlice
  caller : List Process
deriving DecidableEq

/-- One iteration of the FCFS loop body (main.go lines 91-121).  Note
that `waitingTime` is only reassigned when `ArrivalTime > 0`; otherwise
the value left over from the previous iteration (initially `0`) is
reused. -/
def fcfsStep (st : FCFSState) (p : Process) : FCFSState :=
  let waitingTime := if p.ArrivalTime > 0 then st.serviceTime - p.ArrivalTime else st.waitingTime
  let start := waitingTime + p.ArrivalTime
  let turnaround := p.BurstDuration + waitingTime
  let completion := p.BurstDuration + p.ArrivalTime + waitingTime
  let serviceTime := st.serviceTime + p.BurstDuration
  { serviceTime := serviceTime
    totalWait := st.totalWait + waitingTime
    totalTurnaround := st.totalTurnaround + turnaround
    lastCompletion := completion
    waitingTime := waitingTime
    schedule := st.schedule ++ [⟨p.ProcessID, p.Priority, p.BurstDuration, p.ArrivalTime,
      waitingTime, turnaround, completion⟩]
    gantt := st.gantt ++ [⟨p.ProcessID, start, serviceTime⟩]
    caller := st.caller }

/-- Initial `FCFSSchedule` locals. -/
def fcfsInit (ps : List Process) : FCFSState :=
  ⟨0, 0, 0, 0, 0, [], [], ps⟩

/-- The full FCFS loop: `FCFSSchedule` reads `processes[i]` for
`i = 0..n-1` and never writes the slice, so the loop is a fold over the
input list. -/
def fcfsFinal (ps : List Process) : FCFSState :=
  ps.foldl fcfsStep (fcfsInit ps)

/-- `FCFSSchedule` (main.go lines 81-131), producing the rows, the
Gantt entries and the summary instead of printing them. -/
def FCFSSchedule (ps : List Process) : SchedResult :=
  let st := fcfsFinal ps
  ⟨st.schedule, st.gantt, mkSummary ps.length st.totalWait st.totalTurnaround st.lastCompletion,
    st.caller⟩

/-! ## The selection scan of SJF / Priority (main.go lines 151-161 and
225-233) -/

/-- The selection loop, scanning `suffix` (the part of `full` from
index `i` on) and carrying the current candidate index `best`:
`best` is replaced by `i` exactly when `full[i]` has arrived and its
key is strictly smaller than the key of `full[best]`.  `full[0]` is the
initial candidate whether or not it has arrived. -/
def goSelectFrom (key : Process → Int) (t : Int) (full : List Process) :
    List Process → Nat → Nat → Nat
  | [], _, best => best
  | p :: rest, i, best =>
      goSelectFrom key t full rest (i + 1)
        (if p.ArrivalTime ≤ t ∧ key p < key (full.getD best dfltP) then i else best)

/-- The index the SJF/Priority selection scan settles on. -/
def goSelect (key : Process → Int) (t : Int) (ps : List Process) : Nat :=
  goSelectFrom key t ps ps 0 0

/-! ## SJF and Priority (main.go lines 133-204 and 207-278)

The two functions are textually identical except for the selection key:
`remainingBurst[p.ProcessID]` (line 155) versus `p.Priority`
(line 229).  The embedding shares the body, keyed by `useRB`. -/

/-- The mutable locals shared by `SJFSchedule`, `SJFPrioritySchedule`
and `RRSchedule`, plus the caller's slice. -/
structure SchedState where
  serviceTime : Int
  totalWait : Int
  totalTurnaround : Int
  lastCompletion : Int
  waitingTime : Int
  schedule : List Row
  gantt : List TimeSlice
  rb : Int → Int
  copyProcesses : List Process
  caller : List Process

attribute [ext] SchedState

/-- The selection key: remaining burst of the process for `SJFSchedule`
(`useRB = true`, main.go line 155), priority value for
`SJFPrioritySchedule` (`useRB = false`, main.go line 229). -/
def schedKey (useRB : Bool) (rb : Int → Int) (p : Process) : Int :=
  if useRB then rb p.ProcessID else p.Priority

/-- One iteration of the SJF/Priority outer loop body (main.go lines
151-193 resp. 225-267), for a non-empty working list.  As in the
source, `waitingTime` is only reassigned when the selected job arrives
after the current service time; otherwise the previous value is
reused. -/
def schedStep (useRB : Bool) (st : SchedState) : SchedState :=
  let idx := goSelect (schedKey useRB st.rb) st.serviceTime st.copyProcesses
  let j := st.copyProcesses.getD idx dfltP
  let rb := mapDel st.rb j.ProcessID
  let waitingTime := if j.ArrivalTime > st.serviceTime then j.ArrivalTime - st.serviceTime else st.waitingTime
  let start := st.serviceTime + waitingTime
  let turnaround := waitingTime + j.BurstDuration
  let completion := st.serviceTime + waitingTime + j.BurstDuration
  { serviceTime := st.serviceTime + turnaround
    totalWait := st.totalWait + waitingTime
    totalTurnaround := st.totalTurnaround + turnaround
    lastCompletion := completion
    waitingTime := waitingTime
    schedule := st.schedule ++ [⟨j.ProcessID, j.Priority, j.BurstDuration, j.ArrivalTime,
      waitingTime, turnaround, completion⟩]
    gantt := st.gantt ++ [⟨j.ProcessID, start, start + turnaround⟩]
    rb := rb
    copyProcesses := st.copyProcesses.eraseIdx idx
    caller := st.caller }

/-- Initial SJF/Priority locals: fresh copy of the input list and the
initialised `remainingBurst` map. -/
def schedInit (ps : List Process) : SchedState :=
  ⟨0, 0, 0, 0, 0, [], [], initRB ps, ps, ps⟩

/-- The `for len(copyProcesses) > 0` loop, with explicit fuel.  Each
iteration removes exactly one process, so fuel `ps.length` runs the
loop to completion (`schedLoop_copy_nil`). -/
def schedLoop (useRB : Bool) : Nat → SchedState → SchedState
  | 0, st => st
  | fuel + 1, st =>
      if st.copyProcesses.isEmpty then st else schedLoop useRB fuel (schedStep useRB st)

/-- Shared tail of `SJFSchedule`/`SJFPrioritySchedule`/`RRSchedule`:
build the summary from the final locals. -/
def schedFinish (n : Nat) (st : SchedState) : SchedResult :=
  ⟨st.schedule, st.gantt, mkSummary n st.totalWait st.totalTurnaround st.lastCompletion, st.caller⟩

/-- The common body of `SJFSchedule` and `SJFPrioritySchedule`. -/
def schedRun (useRB : Bool) (ps : List Process) : SchedResult :=
  schedFinish ps.length (schedLoop useRB ps.length (schedInit ps))

/-- `SJFSchedule` (main.go lines 133-204). -/
def SJFSchedule (ps : List Process) : SchedResult := schedRun true ps

/-- `SJFPrioritySchedule` (main.go lines 207-278). -/
def SJFPrioritySchedule (ps : List Process) : SchedResult := schedRun false ps

/-! ## Round-Robin (main.go lines 281-353) -/

/-- The body of the arrived-branch of the RR inner loop (main.go lines
302-335), excluding the completion-triggered removal: execute one time
unit of `copyProcesses[i]`.  `n` is `len(processes)`; the written row
index is `n - len(copyProcesses)`. -/
def rrSlice (n : Nat) (st : SchedState) (i : Nat) : SchedState :=
  let p := st.copyProcesses.getD i dfltP
  let burstTime := goMin (st.rb p.ProcessID) 1
  let rb := mapSet st.rb p.ProcessID (st.rb p.ProcessID - burstTime)
  let waitingTime := if rb p.ProcessID = 0
    then st.serviceTime + 1 - p.ArrivalTime - burstTime
    else st.serviceTime - p.ArrivalTime
  let start := st.serviceTime + waitingTime
  let turnaround := waitingTime + burstTime
  let completion := st.serviceTime + 1
  { serviceTime := completion
    totalWait := st.totalWait + waitingTime
    totalTurnaround := st.totalTurnaround + turnaround
    lastCompletion := completion
    waitingTime := waitingTime
    schedule := st.schedule.set (n - st.copyProcesses.length) ⟨p.ProcessID, p.Priority,
      p.BurstDuration, p.ArrivalTime, waitingTime, turnaround, completion⟩
    gantt := st.gantt ++ [⟨p.ProcessID, start, start + turnaround⟩]
    rb := rb
    copyProcesses := st.copyProcesses
    caller := st.caller }

/-- The RR inner scan (main.go lines 300-342) over the index list
captured at loop entry: skip processes that have not arrived; execute
one unit for each arrived process; when a process's remaining burst
reaches `0`, remove it by index and `break` out of the scan. -/
def rrScanGo (n : Nat) : List Nat → SchedState → SchedState
  | [], st => st
  | i :: rest, st =>
      let p := st.copyProcesses.getD i dfltP
      if p.ArrivalTime ≤ st.serviceTime then
        let st' := rrSlice n st i
        if st'.rb p.ProcessID = 0 then
          { st' with copyProcesses := st.copyProcesses.eraseIdx i }
        else
          rrScanGo n rest st'
      else
        rrScanGo n rest st

/-- One full pass of the RR inner loop: Go's `for i := range
copyProcesses` captures the length at entry. -/
def rrScan (n : Nat) (st : SchedState) : SchedState :=
  rrScanGo n (List.range st.copyProcesses.length) st

/-- Initial RR locals: the row slice is allocated at length `n`
(`make([][]string, len(processes))`) because RR overwrites row
`n - len(copyProcesses)` repeatedly. -/
def rrInit (ps : List Process) : SchedState :=
  ⟨0, 0, 0, 0, 0, List.replicate ps.length dfltRow, [], initRB ps, ps, ps⟩

/-- The `for len(copyProcesses) > 0` outer loop of `RRSchedule`, with
explicit fuel: the Go loop does not terminate on every input, so the
embedding cannot run it without fuel. -/
def rrLoop (n : Nat) : Nat → SchedState → SchedState
  | 0, st => st
  | fuel + 1, st =>
      if st.copyProcesses.isEmpty then st else rrLoop n fuel (rrScan n st)

/-- `RRSchedule` (main.go lines 281-353), run for `fuel` outer-loop
passes. -/
def RRSchedule (fuel : Nat) (ps : List Process) : SchedResult :=
  schedFinish ps.length (rrLoop ps.length fuel (rrInit ps))

/-! ## Reference definitions used to state claims -/

/-- Total Gantt width: `sum(Stop - Start)` over all timeline entries. -/
def sumWidths (l : List TimeSlice) : Int :=
  (l.map (fun e => e.Stop - e.Start)).sum

/-- Total burst: `sum(BurstDuration)` over all processes. -/
def sumBursts (ps : List Process) : Int :=
  (ps.map Process.BurstDuration).sum

/-- Modelled from the amended FCFS row contract: walking the input in
order with accumulated service time `s` and carried-over wait `w`, the
recorded wait is `s - arrival` when `arrival > 0` and the previous wait
otherwise (not `max 0 (s - arrival)`); `turnaround = wait + burst` and
`completion = arrival + wait + burst` (written in the code's operand
order). -/
def fcfsRowsRef (s w : Int) : List Process → List Row
  | [] => []
  | p :: rest =>
      let w' := if p.ArrivalTime > 0 then s - p.ArrivalTime else w
      ⟨p.ProcessID, p.Priority, p.BurstDuration, p.ArrivalTime, w',
        p.BurstDuration + w', p.BurstDuration + p.ArrivalTime + w'⟩ ::
        fcfsRowsRef (s + p.BurstDuration) w' rest

/-- Modelled from the spec's amended FCFS timeline contract: the entry
for each process starts at `wait + arrival` and stops at the
accumulated service time after adding its burst. -/
def fcfsGanttRef (s w : Int) : List Process → List TimeSlice
  | [] => []
  | p :: rest =>
      let w' := if p.ArrivalTime > 0 then s - p.ArrivalTime else w
      ⟨p.ProcessID, w' + p.ArrivalTime, s + p.BurstDuration⟩ ::
        fcfsGanttRef (s + p.BurstDuration) w' rest

/-- `rowsChainB c rows` checks the completion recurrence
`completion_i = completion_(i-1) + turnaround_i` down a row list, with
`c` standing for the completion before the first row. -/
def rowsChainB (c : Int) : List Row → Bool
  | [] => true
  | r :: rest => (r.completion == c + r.turnaround) && rowsChainB r.completion rest

/-- The completion time of the last row of a list (`c` if empty). -/
def endC (c : Int) : List Row → Int
  | [] => c
  | r :: rest => endC r.completion rest

/-- `triangle k = 0 + 1 + ... + (k-1)`, the total wait `RRSchedule`
accumulates over the first `k` unit slices of a single
arrival-zero process. -/
def triangle : Nat → Int
  | 0 => 0
  | k + 1 => triangle k + k

/-- `triangleT k = 1 + 2 + ... + k`, the total turnaround `RRSchedule`
accumulates over the first `k` unit slices of a single arrival-zero
process. -/
def triangleT : Nat → Int
  | 0 => 0
  | k + 1 => triangleT k + (k + 1)

/-- The single process `{ProcessID 1, ArrivalTime 0, BurstDuration b,
Priority 0}` used for the Round-Robin single-process claim. -/
def rrSingleP (b : Nat) : Process := ⟨1, 0, (b : Int), 0⟩

/-- Closed form of the `RRSchedule` state on the single process
`rrSingleP b` after `k` completed outer-loop passes (`k ≤ b`): slice
`j` spans `[2j, 3j+1]` with recorded wait `j`, and the process leaves
the pending list when `k` reaches `b`. -/
def rrSingleState (b k : Nat) : SchedState :=
  { serviceTime := (k : Int)
    totalWait := triangle k
    totalTurnaround := triangleT k
    lastCompletion := (k : Int)
    waitingTime := if k = 0 then 0 else (k : Int) - 1
    schedule := [if k = 0 then dfltRow else
      ⟨1, 0, (b : Int), 0, (k : Int) - 1, (k : Int), (k : Int)⟩]
    gantt := (List.range k).map (fun j : Nat => ⟨1, 2 * (j : Int), 3 * (j : Int) + 1⟩)
    rb := fun x => if x = 1 then (b : Int) - (k : Int) else 0
    copyProcesses := if k < b then [rrSingleP b] else []
    caller := [rrSingleP b] }

/-- The stable first-minimum selection contract for `goSelectFrom`:
after scanning the first `m` indices, the candidate `b` is in range,
has arrived, holds a key less than or equal to the key of every
scanned arrived index and strictly smaller than the key of every
scanned arrived index before it. -/
def SelInv (key : Process → Int) (t : Int) (full : List Process) (m b : Nat) : Prop :=
  b < full.length ∧ b ≤ m ∧ (full.getD b dfltP).ArrivalTime ≤ t ∧
    ∀ j, j < m → (full.getD j dfltP).ArrivalTime ≤ t →
      key (full.getD b dfltP) ≤ key (full.getD j dfltP) ∧
      (j < b → key (full.getD b dfltP) < key (full.getD j dfltP))

end Sched

namespace Sched

/-! ## Basic list helpers -/

theorem getD_mem_of_lt {α : Type} (l : List α) (d : α) {i : Nat} (h : i < l.length) :
    l.getD i d ∈ l := by
  rw [List.getD_eq_getElem l d h]
  exact List.getElem_mem h

/-! ## The selection scan stays in range -/

theorem goSelectFrom_lt_length (key : Process → Int) (t : Int) (full : List Process) :
    ∀ (suffix : List Process) (i b : Nat), i + suffix.length = full.length →
      b < full.length → goSelectFrom key t full suffix i b < full.length := by
  intro suffix
  induction suffix with
  | nil =>
      intro i b _ hb
      simpa [goSelectFrom] using hb
  | cons p rest ih =>
      intro i b hlen hb
      have hi : i < full.length := by
        simp only [List.length_cons] at hlen
        omega
      have hlen' : (i + 1) + rest.length = full.length := by
        simp only [List.length_cons] at hlen
        omega
      simp only [goSelectFrom]
      refine ih (i + 1) _ hlen' ?_
      split
      · exact hi
      · exact hb

theorem goSelect_lt_length (key : Process → Int) (t : Int) (ps : List Process)
    (h : ps ≠ []) : goSelect key t ps < ps.length := by
  have h0 : 0 < ps.length := List.length_pos.mpr h
  exact goSelectFrom_lt_length key t ps ps 0 0 (by omega) h0

/-! ## One SJF/Priority iteration removes exactly one process -/

theorem schedStep_copy (u : Bool) (st : SchedState) :
    (schedStep u st).copyProcesses =
      st.copyProcesses.eraseIdx (goSelect (schedKey u st.rb) st.serviceTime st.copyProcesses) := rfl

theorem schedStep_copy_length (u : Bool) (st : SchedState) (h : st.copyProcesses ≠ []) :
    (schedStep u st).copyProcesses.length = st.copyProcesses.length - 1 := by
  rw [schedStep_copy, List.length_eraseIdx]
  simp [goSelect_lt_length _ _ _ h]

theorem schedLoop_copy_nil (u : Bool) :
    ∀ (fuel : Nat) (st : SchedState), st.copyProcesses.length ≤ fuel →
      (schedLoop u fuel st).copyProcesses = [] := by
  intro fuel
  induction fuel with
  | zero =>
      intro st h
      have : st.copyProcesses = [] := List.eq_nil_of_length_eq_zero (by omega)
      simpa [schedLoop] using this
  | succ fuel ih =>
      intro st h
      by_cases he : st.copyProcesses.isEmpty
      · simp only [schedLoop, he, if_true]
        exact List.isEmpty_iff.mp he
      · simp only [schedLoop, he, if_false]
        refine ih _ ?_
        have hne : st.copyProcesses ≠ [] := by
          intro hc
          exact he (by simp [hc])
        rw [schedStep_copy_length u st hne]
        omega

/-! ## No scheduler step touches the caller's slice -/

theorem fcfsStep_caller (st : FCFSState) (p : Process) : (fcfsStep st p).caller = st.caller := rfl

theorem fcfs_foldl_caller :
    ∀ (ps : List Process) (st : FCFSState), (ps.foldl fcfsStep st).caller = st.caller := by
  intro ps
  induction ps with
  | nil => intro st; rfl
  | cons p rest ih =>
      intro st
      simpa [List.foldl_cons, fcfsStep_caller] using ih (fcfsStep st p)

theorem schedStep_caller (u : Bool) (st : SchedState) : (schedStep u st).caller = st.caller := rfl

theorem schedLoop_caller (u : Bool) :
    ∀ (fuel : Nat) (st : SchedState), (schedLoop u fuel st).caller = st.caller := by
  intro fuel
  induction fuel with
  | zero => intro st; rfl
  | succ fuel ih =>
      intro st
      show (if st.copyProcesses.isEmpty then st else schedLoop u fuel (schedStep u st)).caller
        = st.caller
      by_cases he : st.copyProcesses.isEmpty
      · rw [if_pos he]
      · rw [if_neg he, ih (schedStep u st), schedStep_caller]

theorem rrSlice_caller (n : Nat) (st : SchedState) (i : Nat) :
    (rrSlice n st i).caller = st.caller := rfl

theorem rrScanGo_caller (n : Nat) :
    ∀ (idxs : List Nat) (st : SchedState), (rrScanGo n idxs st).caller = st.caller := by
  intro idxs
  induction idxs with
  | nil => intro st; rfl
  | cons i rest ih =>
      intro st
      show (if (st.copyProcesses.getD i dfltP).ArrivalTime ≤ st.serviceTime then
          if (rrSlice n st i).rb (st.copyProcesses.getD i dfltP).ProcessID = 0 then
            { rrSlice n st i with copyProcesses := st.copyProcesses.eraseIdx i }
          else rrScanGo n rest (rrSlice n st i)
        else rrScanGo n rest st).caller = st.caller
      by_cases ha : (st.copyProcesses.getD i dfltP).ArrivalTime ≤ st.serviceTime
      · rw [if_pos ha]
        by_cases hz : (rrSlice n st i).rb (st.copyProcesses.getD i dfltP).ProcessID = 0
        · rw [if_pos hz]
          rfl
        · rw [if_neg hz, ih (rrSlice n st i), rrSlice_caller]
      · rw [if_neg ha, ih st]

theorem rrScan_caller (n : Nat) (st : SchedState) : (rrScan n st).caller = st.caller :=
  rrScanGo_caller n _ st

theorem rrLoop_caller (n : Nat) :
    ∀ (fuel : Nat) (st : SchedState), (rrLoop n fuel st).caller = st.caller := by
  intro fuel
  induction fuel with
  | zero => intro st; rfl
  | succ fuel ih =>
      intro st
      show (if st.copyProcesses.isEmpty then st else rrLoop n fuel (rrScan n st)).caller
        = st.caller
      by_cases he : st.copyProcesses.isEmpty
      · rw [if_pos he]
      · rw [if_neg he, ih (rrScan n st), rrScan_caller]

/-! ## The RR loop is inert on an empty pending list -/

theorem rrLoop_of_copy_nil (n : Nat) (fuel : Nat) (st : SchedState)
    (h : st.copyProcesses = []) : rrLoop n fuel st = st := by
  cases fuel with
  | zero => rfl
  | succ fuel => simp [rrLoop, h]

/-! ## Claim theorems -/

/-- C1: the claim says `RRSchedule` terminates on every non-empty list
of valid processes (arrival ≥ 0, burst > 0).  The code does not: on the
single valid process `{ProcessID 1, ArrivalTime 5, BurstDuration 1}`
the outer loop never advances `serviceTime` (no pending process has
arrived at time 0), so every pass leaves the state unchanged, the
pending list never empties, and — for every fuel bound — no row and no
timeline entry is ever produced. -/
theorem rr_stuck_when_none_arrived (fuel : Nat) :
    (rrLoop 1 fuel (rrInit [⟨1, 5, 1, 0⟩])).copyProcesses = [⟨1, 5, 1, 0⟩] ∧
    (RRSchedule fuel [⟨1, 5, 1, 0⟩]).rows = [dfltRow] ∧
    (RRSchedule fuel [⟨1, 5, 1, 0⟩]).gantt = [] := by
  have hscan : rrScan 1 (rrInit [⟨1, 5, 1, 0⟩]) = rrInit [⟨1, 5, 1, 0⟩] := rfl
  have hloop : ∀ f, rrLoop 1 f (rrInit [⟨1, 5, 1, 0⟩]) = rrInit [⟨1, 5, 1, 0⟩] := by
    intro f
    induction f with
    | zero => rfl
    | succ f ih =>
        have hne : ((rrInit [⟨1, 5, 1, 0⟩]).copyProcesses).isEmpty = false := rfl
        simp only [rrLoop, hne, Bool.false_eq_true, if_false, hscan, ih]
  refine ⟨by rw [hloop fuel]; rfl, ?_, ?_⟩
  · show (rrLoop 1 fuel (rrInit [⟨1, 5, 1, 0⟩])).schedule = [dfltRow]
    rw [hloop fuel]
    rfl
  · show (rrLoop 1 fuel (rrInit [⟨1, 5, 1, 0⟩])).gantt = []
    rw [hloop fuel]
    rfl

/-- C8: on the empty process list every scheduler completes, produces
zero rows and zero timeline entries, and all three final divisions
(`totalWait/count`, `totalTurnaround/count`, `count/lastCompletion`)
are `0/0`, modelled as `none` (Go's `NaN`), not a crash. -/
theorem empty_input_schedulers (fuel : Nat) :
    (FCFSSchedule []).rows = [] ∧ (FCFSSchedule []).gantt = [] ∧
    (FCFSSchedule []).summary = ⟨none, none, none⟩ ∧
    (SJFSchedule []).rows = [] ∧ (SJFSchedule []).gantt = [] ∧
    (SJFSchedule []).summary = ⟨none, none, none⟩ ∧
    (SJFPrioritySchedule []).rows = [] ∧ (SJFPrioritySchedule []).gantt = [] ∧
    (SJFPrioritySchedule []).summary = ⟨none, none, none⟩ ∧
    (RRSchedule fuel []).rows = [] ∧ (RRSchedule fuel []).gantt = [] ∧
    (RRSchedule fuel []).summary = ⟨none, none, none⟩ := by
  have hrr : rrLoop 0 fuel (rrInit []) = rrInit [] := rrLoop_of_copy_nil 0 fuel _ rfl
  refine ⟨by decide, by decide, by decide, by decide, by decide, by decide,
    by decide, by decide, by decide, ?_, ?_, ?_⟩
  · show (rrLoop 0 fuel (rrInit [])).schedule = []
    rw [hrr]
    rfl
  · show (rrLoop 0 fuel (rrInit [])).gantt = []
    rw [hrr]
    rfl
  · show mkSummary 0 (rrLoop 0 fuel (rrInit [])).totalWait
        (rrLoop 0 fuel (rrInit [])).totalTurnaround
        (rrLoop 0 fuel (rrInit [])).lastCompletion = ⟨none, none, none⟩
    rw [hrr]
    decide

/-- C9: no scheduler invocation modifies the caller's process list.
`FCFSSchedule` only reads the slice; the other three copy it into a
fresh backing array before their in-place deletions, so the caller's
slice after each call equals the input, and running the four schedulers
in sequence (as `main` does) gives each one the original processes. -/
theorem schedulers_preserve_caller (ps : List Process) (fuel : Nat) :
    (FCFSSchedule ps).caller = ps ∧ (SJFSchedule ps).caller = ps ∧
    (SJFPrioritySchedule ps).caller = ps ∧ (RRSchedule fuel ps).caller = ps ∧
    SJFSchedule ((FCFSSchedule ps).caller) = SJFSchedule ps ∧
    SJFPrioritySchedule ((SJFSchedule ps).caller) = SJFPrioritySchedule ps ∧
    RRSchedule fuel ((SJFPrioritySchedule ps).caller) = RRSchedule fuel ps := by
  have h1 : (FCFSSchedule ps).caller = ps := fcfs_foldl_caller ps (fcfsInit ps)
  have h2 : (SJFSchedule ps).caller = ps := schedLoop_caller true ps.length (schedInit ps)
  have h3 : (SJFPrioritySchedule ps).caller = ps :=
    schedLoop_caller false ps.length (schedInit ps)
  have h4 : (RRSchedule fuel ps).caller = ps := rrLoop_caller ps.length fuel (rrInit ps)
  exact ⟨h1, h2, h3, h4, by rw [h1], by rw [h2], by rw [h3]⟩

end Sched

namespace Sched

/-! ## Counterexamples: concrete runs refuting spec claims -/

/-- C2 counterexample: on the single process `{ProcessID 1,
ArrivalTime 3, BurstDuration 1}`, FCFS records wait `-3`
(`serviceTime - arrival` with no clamp), but the claimed formula
`max(0, serviceTimeSoFar - arrival)` gives `0`. -/
theorem fcfs_wait_max_counterexample :
    ((FCFSSchedule [⟨1, 3, 1, 0⟩]).rows.getD 0 dfltRow).wait = -3 ∧
    ((-3 : Int) ≠ max 0 (0 - 3)) := by decide

/-- C3 counterexample: with working list `[{pid 1, arrival 5, burst 1},
{pid 2, arrival 0, burst 3}]` at time `0`, the selection scan returns
index `0` — a process that has not arrived — although process 2 has
arrived (and is therefore the unique arrived process with minimal
remaining burst); the first scheduled row is indeed pid 1 with wait 5.
The claim that the scheduled process is always among the arrived ones
is false. -/
theorem sjf_select_unarrived_counterexample :
    goSelect (fun p => (schedInit [⟨1, 5, 1, 0⟩, ⟨2, 0, 3, 0⟩]).rb p.ProcessID) 0
        [⟨1, 5, 1, 0⟩, ⟨2, 0, 3, 0⟩] = 0 ∧
    ¬ ((([⟨1, 5, 1, 0⟩, ⟨2, 0, 3, 0⟩] : List Process).getD 0 dfltP).ArrivalTime ≤ 0) ∧
    ((([⟨1, 5, 1, 0⟩, ⟨2, 0, 3, 0⟩] : List Process).getD 1 dfltP).ArrivalTime ≤ 0) ∧
    (SJFSchedule [⟨1, 5, 1, 0⟩, ⟨2, 0, 3, 0⟩]).rows.getD 0 dfltRow =
      ⟨1, 0, 1, 5, 5, 6, 6⟩ := by decide

/-- C4 counterexample: FCFS on `[{pid 1, arrival 0, burst 5},
{pid 2, arrival 0, burst 3}]` produces timeline widths `5` and `8`
(the second entry starts at the stale `wait + arrival = 0` instead of
at time `5`), total `13`, while the bursts sum to `8`: CPU time is not
conserved. -/
theorem cpu_conservation_counterexample :
    sumWidths (FCFSSchedule [⟨1, 0, 5, 0⟩, ⟨2, 0, 3, 0⟩]).gantt = 13 ∧
    sumBursts [⟨1, 0, 5, 0⟩, ⟨2, 0, 3, 0⟩] = 8 ∧ ((13 : Int) ≠ 8) := by decide

/-- C5 counterexample: SJF on `[{pid 1, arrival 0, burst 5},
{pid 2, arrival 0, burst 3}]` records for the second-completed process
(pid 1) `completion = 8 = serviceTime + wait + burst`, while the claim
says `completion = arrival + wait + burst = 0 + 0 + 5 = 5`. -/
theorem sjf_completion_formula_counterexample :
    (SJFSchedule [⟨1, 0, 5, 0⟩, ⟨2, 0, 3, 0⟩]).rows.getD 1 dfltRow =
      ⟨1, 0, 5, 0, 0, 5, 8⟩ ∧ ((8 : Int) ≠ 0 + 0 + 5) := by decide

/-- C6 counterexample: Round-Robin on the single process
`{pid 1, arrival 0, burst 2}` terminates (the pending list is empty
after 2 passes) with timeline `[(0,1), (2,4)]` — the second entry has
width `2`, not `1` — and records wait `1`, not `0` (the completion time
is the claimed `2`). -/
theorem rr_single_counterexample :
    (RRSchedule 2 [⟨1, 0, 2, 0⟩]).gantt = [⟨1, 0, 1⟩, ⟨1, 2, 4⟩] ∧
    ((4 : Int) - 2 ≠ 1) ∧
    ((RRSchedule 2 [⟨1, 0, 2, 0⟩]).rows.getD 0 dfltRow).wait = 1 ∧ ((1 : Int) ≠ 0) ∧
    (rrLoop 1 2 (rrInit [⟨1, 0, 2, 0⟩])).copyProcesses = [] := by decide

/-- C7 counterexample: FCFS on the single process `{pid 1, arrival 3,
burst 1}` (a valid input: arrival ≥ 0, burst > 0) computes
`averageWait = -3 < 0`. -/
theorem fcfs_negative_avewait_counterexample :
    (FCFSSchedule [⟨1, 3, 1, 0⟩]).summary.aveWait = some (-3 : ℚ) ∧
    ¬ ((0 : ℚ) ≤ (-3 : ℚ)) := by
  constructor
  · show goDiv ((-3 : Int) : ℚ) ((1 : Nat) : ℚ) = some (-3 : ℚ)
    norm_num [goDiv]
  · norm_num

/-! ## C4 amended: FCFS conserves CPU time when every arrival is
positive -/

theorem sumWidths_append (a b : List TimeSlice) :
    sumWidths (a ++ b) = sumWidths a + sumWidths b := by
  simp [sumWidths]

theorem sumBursts_cons (p : Process) (ps : List Process) :
    sumBursts (p :: ps) = p.BurstDuration + sumBursts ps := by
  simp [sumBursts]

theorem fcfs_fold_sumWidths :
    ∀ (ps : List Process) (st : FCFSState), (∀ p ∈ ps, 0 < p.ArrivalTime) →
      sumWidths (ps.foldl fcfsStep st).gantt = sumWidths st.gantt + sumBursts ps := by
  intro ps
  induction ps with
  | nil =>
      intro st _
      simp [sumBursts, sumWidths]
  | cons p rest ih =>
      intro st h
      have hp : 0 < p.ArrivalTime := h p (by simp)
      have hrest : ∀ q ∈ rest, 0 < q.ArrivalTime := fun q hq => h q (by simp [hq])
      rw [List.foldl_cons, ih (fcfsStep st p) hrest]
      have hg : (fcfsStep st p).gantt = st.gantt ++
          [⟨p.ProcessID, (st.serviceTime - p.ArrivalTime) + p.ArrivalTime,
            st.serviceTime + p.BurstDuration⟩] := by
        show st.gantt ++ [⟨p.ProcessID,
            (if p.ArrivalTime > 0 then st.serviceTime - p.ArrivalTime else st.waitingTime)
              + p.ArrivalTime,
            st.serviceTime + p.BurstDuration⟩] = _
        rw [if_pos hp]
      rw [hg, sumWidths_append, sumBursts_cons]
      have hw : sumWidths [(⟨p.ProcessID, (st.serviceTime - p.ArrivalTime) + p.ArrivalTime,
          st.serviceTime + p.BurstDuration⟩ : TimeSlice)] = p.BurstDuration := by
        simp [sumWidths]
      rw [hw]
      ring

/-- C4 amended: the conservation law `sum(burst) = sum(Stop - Start)`
does not hold for the four schedulers in general (see the
counterexample), but it does hold for `FCFSSchedule` whenever every
process has a positive arrival time, because then the wait-time
assignment is executed on every iteration and each timeline entry spans
exactly its process's burst. -/
theorem fcfs_conservation_pos_arrivals (ps : List Process)
    (h : ∀ p ∈ ps, 0 < p.ArrivalTime) :
    sumWidths (FCFSSchedule ps).gantt = sumBursts ps := by
  have hfold := fcfs_fold_sumWidths ps (fcfsInit ps) h
  show sumWidths (ps.foldl fcfsStep (fcfsInit ps)).gantt = sumBursts ps
  rw [hfold]
  simp [fcfsInit, sumWidths]

theorem fcfs_conservation_pos_arrivals_witness :
    (∀ p ∈ ([⟨1, 2, 3, 4⟩, ⟨2, 1, 4, 0⟩] : List Process), 0 < p.ArrivalTime) ∧
    sumWidths (FCFSSchedule [⟨1, 2, 3, 4⟩, ⟨2, 1, 4, 0⟩]).gantt =
      sumBursts [⟨1, 2, 3, 4⟩, ⟨2, 1, 4, 0⟩] :=
  ⟨by decide, fcfs_conservation_pos_arrivals _ (by decide)⟩

end Sched

namespace Sched

/-! ## C2 amended: the FCFS rows and timeline follow the stale-wait
recursion -/

theorem fcfs_fold_rows_gantt :
    ∀ (ps : List Process) (st : FCFSState),
      (ps.foldl fcfsStep st).schedule =
        st.schedule ++ fcfsRowsRef st.serviceTime st.waitingTime ps ∧
      (ps.foldl fcfsStep st).gantt =
        st.gantt ++ fcfsGanttRef st.serviceTime st.waitingTime ps := by
  intro ps
  induction ps with
  | nil =>
      intro st
      simp [fcfsRowsRef, fcfsGanttRef]
  | cons p rest ih =>
      intro st
      rw [List.foldl_cons]
      obtain ⟨h1, h2⟩ := ih (fcfsStep st p)
      constructor
      · rw [h1]
        simp only [fcfsStep, fcfsRowsRef, List.append_assoc, List.singleton_append]
      · rw [h2]
        simp only [fcfsStep, fcfsGanttRef, List.append_assoc, List.singleton_append]

theorem fcfsRef_relations :
    ∀ (ps : List Process) (s w : Int) (i : Nat), i < ps.length →
      ((fcfsGanttRef s w ps).getD i dfltT).Start =
        ((fcfsRowsRef s w ps).getD i dfltRow).wait +
          ((fcfsRowsRef s w ps).getD i dfltRow).arrival ∧
      ((fcfsRowsRef s w ps).getD i dfltRow).completion =
        ((fcfsRowsRef s w ps).getD i dfltRow).arrival +
          ((fcfsRowsRef s w ps).getD i dfltRow).wait +
          ((fcfsRowsRef s w ps).getD i dfltRow).burst := by
  intro ps
  induction ps with
  | nil =>
      intro s w i hi
      simp at hi
  | cons p rest ih =>
      intro s w i hi
      cases i with
      | zero =>
          simp only [fcfsRowsRef, fcfsGanttRef, List.getD_cons_zero]
          constructor <;> ring
      | succ i =>
          simp only [fcfsRowsRef, fcfsGanttRef, List.getD_cons_succ]
          exact ih (s + p.BurstDuration) _ i (by simpa using hi)

/-- C2 amended: FCFS records, for each process in input order, the wait
`serviceTimeSoFar - arrival` when `arrival > 0` and otherwise the wait
carried over from the previous process (`0` initially) — not
`max(0, serviceTimeSoFar - arrival)`.  With that wait, the timeline
entry starts at `wait + arrival` and the recorded completion equals
`arrival + wait + burst`, as claimed. -/
theorem fcfs_rows_follow_stale_wait_rule (ps : List Process) :
    (FCFSSchedule ps).rows = fcfsRowsRef 0 0 ps ∧
    (FCFSSchedule ps).gantt = fcfsGanttRef 0 0 ps ∧
    ∀ i, i < ps.length →
      (((FCFSSchedule ps).gantt.getD i dfltT).Start =
        ((FCFSSchedule ps).rows.getD i dfltRow).wait +
          ((FCFSSchedule ps).rows.getD i dfltRow).arrival) ∧
      (((FCFSSchedule ps).rows.getD i dfltRow).completion =
        ((FCFSSchedule ps).rows.getD i dfltRow).arrival +
          ((FCFSSchedule ps).rows.getD i dfltRow).wait +
          ((FCFSSchedule ps).rows.getD i dfltRow).burst) := by
  obtain ⟨h1, h2⟩ := fcfs_fold_rows_gantt ps (fcfsInit ps)
  have hrows : (FCFSSchedule ps).rows = fcfsRowsRef 0 0 ps := by
    show (ps.foldl fcfsStep (fcfsInit ps)).schedule = _
    rw [h1]
    rfl
  have hg : (FCFSSchedule ps).gantt = fcfsGanttRef 0 0 ps := by
    show (ps.foldl fcfsStep (fcfsInit ps)).gantt = _
    rw [h2]
    rfl
  refine ⟨hrows, hg, ?_⟩
  intro i hi
  rw [hrows, hg]
  exact fcfsRef_relations ps 0 0 i hi

theorem fcfs_rows_follow_stale_wait_rule_witness :
    (1 < ([⟨1, 0, 2, 0⟩, ⟨2, 1, 3, 0⟩] : List Process).length) ∧
    (((FCFSSchedule [⟨1, 0, 2, 0⟩, ⟨2, 1, 3, 0⟩]).gantt.getD 1 dfltT).Start =
      ((FCFSSchedule [⟨1, 0, 2, 0⟩, ⟨2, 1, 3, 0⟩]).rows.getD 1 dfltRow).wait +
        ((FCFSSchedule [⟨1, 0, 2, 0⟩, ⟨2, 1, 3, 0⟩]).rows.getD 1 dfltRow).arrival) ∧
    (((FCFSSchedule [⟨1, 0, 2, 0⟩, ⟨2, 1, 3, 0⟩]).rows.getD 1 dfltRow).completion =
      ((FCFSSchedule [⟨1, 0, 2, 0⟩, ⟨2, 1, 3, 0⟩]).rows.getD 1 dfltRow).arrival +
        ((FCFSSchedule [⟨1, 0, 2, 0⟩, ⟨2, 1, 3, 0⟩]).rows.getD 1 dfltRow).wait +
        ((FCFSSchedule [⟨1, 0, 2, 0⟩, ⟨2, 1, 3, 0⟩]).rows.getD 1 dfltRow).burst) :=
  ⟨by decide,
    ((fcfs_rows_follow_stale_wait_rule [⟨1, 0, 2, 0⟩, ⟨2, 1, 3, 0⟩]).2.2 1 (by decide)).1,
    ((fcfs_rows_follow_stale_wait_rule [⟨1, 0, 2, 0⟩, ⟨2, 1, 3, 0⟩]).2.2 1 (by decide)).2⟩

/-! ## C5 amended: per-row turnaround and completion laws -/

theorem endC_append (c : Int) (l : List Row) (r : Row) :
    endC c (l ++ [r]) = r.completion := by
  induction l generalizing c with
  | nil => rfl
  | cons a rest ih =>
      show endC a.completion (rest ++ [r]) = r.completion
      exact ih a.completion

theorem rowsChainB_append (c : Int) (l : List Row) (r : Row) :
    rowsChainB c (l ++ [r]) =
      (rowsChainB c l && (r.completion == endC c l + r.turnaround)) := by
  induction l generalizing c with
  | nil => simp [rowsChainB, endC]
  | cons a rest ih =>
      show ((a.completion == c + a.turnaround) && rowsChainB a.completion (rest ++ [r])) = _
      rw [ih a.completion, ← Bool.and_assoc]
      rfl

theorem fcfsStep_row_shape (st : FCFSState) (p : Process) :
    ∃ r, (fcfsStep st p).schedule = st.schedule ++ [r] ∧
      r.turnaround = r.wait + r.burst ∧
      r.completion = r.arrival + r.wait + r.burst := by
  refine ⟨_, rfl, ?_, ?_⟩
  · show p.BurstDuration +
        (if p.ArrivalTime > 0 then st.serviceTime - p.ArrivalTime else st.waitingTime) =
      (if p.ArrivalTime > 0 then st.serviceTime - p.ArrivalTime else st.waitingTime) +
        p.BurstDuration
    ring
  · show p.BurstDuration + p.ArrivalTime +
        (if p.ArrivalTime > 0 then st.serviceTime - p.ArrivalTime else st.waitingTime) =
      p.ArrivalTime +
        (if p.ArrivalTime > 0 then st.serviceTime - p.ArrivalTime else st.waitingTime) +
        p.BurstDuration
    ring

theorem fcfs_fold_row_rel :
    ∀ (ps : List Process) (st : FCFSState),
      (∀ r ∈ st.schedule, r.turnaround = r.wait + r.burst ∧
        r.completion = r.arrival + r.wait + r.burst) →
      ∀ r ∈ (ps.foldl fcfsStep st).schedule,
        r.turnaround = r.wait + r.burst ∧ r.completion = r.arrival + r.wait + r.burst := by
  intro ps
  induction ps with
  | nil => intro st h; exact h
  | cons p rest ih =>
      intro st h
      rw [List.foldl_cons]
      apply ih
      obtain ⟨r0, hs, hr1, hr2⟩ := fcfsStep_row_shape st p
      intro r hr
      rw [hs] at hr
      rcases List.mem_append.mp hr with hmem | hmem
      · exact h r hmem
      · rw [List.mem_singleton.mp hmem]
        exact ⟨hr1, hr2⟩

theorem schedStep_row_shape (u : Bool) (st : SchedState) :
    ∃ r, (schedStep u st).schedule = st.schedule ++ [r] ∧
      r.turnaround = r.wait + r.burst ∧
      r.completion = st.serviceTime + r.turnaround ∧
      (schedStep u st).serviceTime = st.serviceTime + r.turnaround :=
  ⟨_, rfl, rfl, add_assoc _ _ _, rfl⟩

theorem schedLoop_rows_inv (u : Bool) :
    ∀ (fuel : Nat) (st : SchedState),
      (∀ r ∈ st.schedule, r.turnaround = r.wait + r.burst) →
      rowsChainB 0 st.schedule = true →
      st.serviceTime = endC 0 st.schedule →
      (∀ r ∈ (schedLoop u fuel st).schedule, r.turnaround = r.wait + r.burst) ∧
      rowsChainB 0 (schedLoop u fuel st).schedule = true := by
  intro fuel
  induction fuel with
  | zero => intro st h1 h2 _; exact ⟨h1, h2⟩
  | succ fuel ih =>
      intro st h1 h2 h3
      have hunf : schedLoop u (fuel + 1) st =
          if st.copyProcesses.isEmpty then st else schedLoop u fuel (schedStep u st) := rfl
      rw [hunf]
      by_cases he : st.copyProcesses.isEmpty
      · rw [if_pos he]
        exact ⟨h1, h2⟩
      · rw [if_neg he]
        obtain ⟨r, hs, hr1, hr2, hr3⟩ := schedStep_row_shape u st
        apply ih
        · intro r' hr'
          rw [hs] at hr'
          rcases List.mem_append.mp hr' with hmem | hmem
          · exact h1 r' hmem
          · rw [List.mem_singleton.mp hmem]
            exact hr1
        · rw [hs, rowsChainB_append, h2, Bool.true_and, beq_iff_eq]
          rw [← h3, hr2]
        · rw [hs, endC_append, hr3, hr2]

/-- C5 amended: every row of FCFS, SJF and Priority satisfies
`turnaround = wait + burst`.  FCFS rows also satisfy
`completion = arrival + wait + burst`; SJF and Priority rows instead
satisfy the chain law `completion_i = completion_(i-1) + turnaround_i`
(first completion counted from `0`), because their completion is
computed from the running service time, not from the arrival. -/
theorem rows_turnaround_completion (ps : List Process) :
    (∀ r ∈ (FCFSSchedule ps).rows, r.turnaround = r.wait + r.burst ∧
      r.completion = r.arrival + r.wait + r.burst) ∧
    (∀ r ∈ (SJFSchedule ps).rows, r.turnaround = r.wait + r.burst) ∧
    rowsChainB 0 (SJFSchedule ps).rows = true ∧
    (∀ r ∈ (SJFPrioritySchedule ps).rows, r.turnaround = r.wait + r.burst) ∧
    rowsChainB 0 (SJFPrioritySchedule ps).rows = true := by
  have hfcfs := fcfs_fold_row_rel ps (fcfsInit ps) (by intro r hr; simp [fcfsInit] at hr)
  have hsjf := schedLoop_rows_inv true ps.length (schedInit ps)
    (by intro r hr; simp [schedInit] at hr) rfl rfl
  have hprio := schedLoop_rows_inv false ps.length (schedInit ps)
    (by intro r hr; simp [schedInit] at hr) rfl rfl
  exact ⟨hfcfs, hsjf.1, hsjf.2, hprio.1, hprio.2⟩

theorem rows_turnaround_completion_witness :
    ((⟨1, 0, 2, 0, 0, 2, 2⟩ : Row) ∈ (FCFSSchedule [⟨1, 0, 2, 0⟩]).rows) ∧
    ((⟨1, 0, 2, 0, 0, 2, 2⟩ : Row).turnaround =
      (⟨1, 0, 2, 0, 0, 2, 2⟩ : Row).wait + (⟨1, 0, 2, 0, 0, 2, 2⟩ : Row).burst ∧
     (⟨1, 0, 2, 0, 0, 2, 2⟩ : Row).completion =
      (⟨1, 0, 2, 0, 0, 2, 2⟩ : Row).arrival + (⟨1, 0, 2, 0, 0, 2, 2⟩ : Row).wait +
        (⟨1, 0, 2, 0, 0, 2, 2⟩ : Row).burst) ∧
    rowsChainB 0 (SJFSchedule [⟨1, 0, 2, 0⟩]).rows = true :=
  ⟨by decide,
    (rows_turnaround_completion [⟨1, 0, 2, 0⟩]).1 ⟨1, 0, 2, 0, 0, 2, 2⟩ (by decide),
    (rows_turnaround_completion [⟨1, 0, 2, 0⟩]).2.2.1⟩

end Sched

namespace Sched

/-! ## C7 amended: SJF / Priority / RR never record negative waits -/

theorem schedStep_wait_nonneg (u : Bool) (st : SchedState)
    (h1 : 0 ≤ st.waitingTime) (h2 : 0 ≤ st.totalWait) :
    0 ≤ (schedStep u st).waitingTime ∧ 0 ≤ (schedStep u st).totalWait := by
  have hw : (schedStep u st).waitingTime =
      if (st.copyProcesses.getD (goSelect (schedKey u st.rb) st.serviceTime st.copyProcesses)
            dfltP).ArrivalTime > st.serviceTime
      then (st.copyProcesses.getD (goSelect (schedKey u st.rb) st.serviceTime st.copyProcesses)
            dfltP).ArrivalTime - st.serviceTime
      else st.waitingTime := rfl
  have ht : (schedStep u st).totalWait = st.totalWait + (schedStep u st).waitingTime := rfl
  have hwn : 0 ≤ (schedStep u st).waitingTime := by
    rw [hw]
    split <;> omega
  exact ⟨hwn, by rw [ht]; omega⟩

theorem schedLoop_totalWait_nonneg (u : Bool) :
    ∀ (fuel : Nat) (st : SchedState), 0 ≤ st.waitingTime → 0 ≤ st.totalWait →
      0 ≤ (schedLoop u fuel st).totalWait := by
  intro fuel
  induction fuel with
  | zero => intro st _ h2; exact h2
  | succ fuel ih =>
      intro st h1 h2
      have hunf : schedLoop u (fuel + 1) st =
          if st.copyProcesses.isEmpty then st else schedLoop u fuel (schedStep u st) := rfl
      rw [hunf]
      by_cases he : st.copyProcesses.isEmpty
      · rw [if_pos he]; exact h2
      · rw [if_neg he]
        obtain ⟨hw, ht⟩ := schedStep_wait_nonneg u st h1 h2
        exact ih _ hw ht

theorem rrSlice_totalWait_nonneg (n : Nat) (st : SchedState) (i : Nat)
    (ha : (st.copyProcesses.getD i dfltP).ArrivalTime ≤ st.serviceTime)
    (h : 0 ≤ st.totalWait) : 0 ≤ (rrSlice n st i).totalWait := by
  have hbt : goMin (st.rb (st.copyProcesses.getD i dfltP).ProcessID) 1 ≤ 1 := by
    unfold goMin
    split <;> omega
  have ht : (rrSlice n st i).totalWait = st.totalWait +
      (if (mapSet st.rb (st.copyProcesses.getD i dfltP).ProcessID
            (st.rb (st.copyProcesses.getD i dfltP).ProcessID -
              goMin (st.rb (st.copyProcesses.getD i dfltP).ProcessID) 1))
          (st.copyProcesses.getD i dfltP).ProcessID = 0
        then st.serviceTime + 1 - (st.copyProcesses.getD i dfltP).ArrivalTime -
          goMin (st.rb (st.copyProcesses.getD i dfltP).ProcessID) 1
        else st.serviceTime - (st.copyProcesses.getD i dfltP).ArrivalTime) := rfl
  rw [ht]
  split <;> omega

theorem rrScanGo_totalWait_nonneg (n : Nat) :
    ∀ (idxs : List Nat) (st : SchedState), 0 ≤ st.totalWait →
      0 ≤ (rrScanGo n idxs st).totalWait := by
  intro idxs
  induction idxs with
  | nil => intro st h; exact h
  | cons i rest ih =>
      intro st h
      show 0 ≤ (if (st.copyProcesses.getD i dfltP).ArrivalTime ≤ st.serviceTime then
          if (rrSlice n st i).rb (st.copyProcesses.getD i dfltP).ProcessID = 0 then
            { rrSlice n st i with copyProcesses := st.copyProcesses.eraseIdx i }
          else rrScanGo n rest (rrSlice n st i)
        else rrScanGo n rest st).totalWait
      by_cases ha : (st.copyProcesses.getD i dfltP).ArrivalTime ≤ st.serviceTime
      · rw [if_pos ha]
        by_cases hz : (rrSlice n st i).rb (st.copyProcesses.getD i dfltP).ProcessID = 0
        · rw [if_pos hz]
          show 0 ≤ (rrSlice n st i).totalWait
          exact rrSlice_totalWait_nonneg n st i ha h
        · rw [if_neg hz]
          exact ih _ (rrSlice_totalWait_nonneg n st i ha h)
      · rw [if_neg ha]
        exact ih st h

theorem rrLoop_totalWait_nonneg (n : Nat) :
    ∀ (fuel : Nat) (st : SchedState), 0 ≤ st.totalWait →
      0 ≤ (rrLoop n fuel st).totalWait := by
  intro fuel
  induction fuel with
  | zero => intro st h; exact h
  | succ fuel ih =>
      intro st h
      show 0 ≤ (if st.copyProcesses.isEmpty then st else rrLoop n fuel (rrScan n st)).totalWait
      by_cases he : st.copyProcesses.isEmpty
      · rw [if_pos he]; exact h
      · rw [if_neg he]
        exact ih _ (rrScanGo_totalWait_nonneg n _ st h)

/-- C7 amended: `averageWait ≥ 0` holds for `SJFSchedule`,
`SJFPrioritySchedule` and `RRSchedule` on every non-empty input — their
recorded waits are never negative, because a wait is only assigned when
it is a positive arrival gap (SJF/Priority) or under the
`arrival ≤ serviceTime` guard (RR).  For `FCFSSchedule` the property
fails (see the counterexample). -/
theorem avewait_nonneg_sjf_prio_rr (ps : List Process) (fuel : Nat) (h : ps ≠ []) :
    (∃ q, (SJFSchedule ps).summary.aveWait = some q ∧ 0 ≤ q) ∧
    (∃ q, (SJFPrioritySchedule ps).summary.aveWait = some q ∧ 0 ≤ q) ∧
    (∃ q, (RRSchedule fuel ps).summary.aveWait = some q ∧ 0 ≤ q) := by
  have hn : ((ps.length : Nat) : ℚ) ≠ 0 := by
    have : ps.length ≠ 0 := fun hc => h (List.eq_nil_of_length_eq_zero hc)
    exact_mod_cast this
  have key : ∀ tw : Int, 0 ≤ tw →
      ∃ q, goDiv (tw : ℚ) ((ps.length : Nat) : ℚ) = some q ∧ 0 ≤ q := by
    intro tw htw
    refine ⟨(tw : ℚ) / ((ps.length : Nat) : ℚ), ?_, ?_⟩
    · simp [goDiv, hn]
    · apply div_nonneg
      · exact_mod_cast htw
      · exact Nat.cast_nonneg _
  exact ⟨key _ (schedLoop_totalWait_nonneg true ps.length (schedInit ps) le_rfl le_rfl),
    key _ (schedLoop_totalWait_nonneg false ps.length (schedInit ps) le_rfl le_rfl),
    key _ (rrLoop_totalWait_nonneg ps.length fuel (rrInit ps) le_rfl)⟩

theorem avewait_nonneg_sjf_prio_rr_witness :
    (([⟨1, 0, 1, 0⟩] : List Process) ≠ []) ∧
    ((∃ q, (SJFSchedule [⟨1, 0, 1, 0⟩]).summary.aveWait = some q ∧ 0 ≤ q) ∧
     (∃ q, (SJFPrioritySchedule [⟨1, 0, 1, 0⟩]).summary.aveWait = some q ∧ 0 ≤ q) ∧
     (∃ q, (RRSchedule 1 [⟨1, 0, 1, 0⟩]).summary.aveWait = some q ∧ 0 ≤ q)) :=
  ⟨by decide, avewait_nonneg_sjf_prio_rr [⟨1, 0, 1, 0⟩] 1 (by decide)⟩

end Sched

namespace Sched

/-! ## C3 amended: the selection scan is a stable first-minimum over
arrived processes whenever the head of the working list has arrived -/

theorem goSelectFrom_spec (key : Process → Int) (t : Int) (full : List Process) :
    ∀ (suffix : List Process) (i b : Nat),
      (∀ k, k < suffix.length → suffix.getD k dfltP = full.getD (i + k) dfltP) →
      i + suffix.length = full.length →
      SelInv key t full i b →
      SelInv key t full full.length (goSelectFrom key t full suffix i b) := by
  intro suffix
  induction suffix with
  | nil =>
      intro i b _ hlen hinv
      have hif : i = full.length := by simpa using hlen
      show SelInv key t full full.length b
      rw [← hif]
      exact hinv
  | cons p rest ih =>
      intro i b hcorr hlen hinv
      obtain ⟨hblt, hble, harr, hmin⟩ := hinv
      have hi : i < full.length := by
        simp only [List.length_cons] at hlen
        omega
      have hp : p = full.getD i dfltP := by
        simpa using hcorr 0 (by simp)
      simp only [goSelectFrom]
      apply ih (i + 1)
      · intro k hk
        have h2 := hcorr (k + 1) (by simp only [List.length_cons]; omega)
        rw [List.getD_cons_succ] at h2
        have harith : i + (k + 1) = i + 1 + k := by omega
        rwa [harith] at h2
      · simp only [List.length_cons] at hlen
        omega
      · by_cases hc : p.ArrivalTime ≤ t ∧ key p < key (full.getD b dfltP)
        · rw [if_pos hc]
          refine ⟨hi, by omega, by rw [← hp]; exact hc.1, ?_⟩
          intro j hj harrj
          rcases Nat.lt_succ_iff_lt_or_eq.mp hj with hj' | rfl
          · have hmj := (hmin j hj' harrj).1
            have hlt : key (full.getD i dfltP) < key (full.getD j dfltP) := by
              rw [← hp]
              exact lt_of_lt_of_le hc.2 hmj
            exact ⟨le_of_lt hlt, fun _ => hlt⟩
          · exact ⟨le_rfl, fun hji => absurd hji (lt_irrefl _)⟩
        · rw [if_neg hc]
          refine ⟨hblt, by omega, harr, ?_⟩
          intro j hj harrj
          rcases Nat.lt_succ_iff_lt_or_eq.mp hj with hj' | rfl
          · exact hmin j hj' harrj
          · have hple : key (full.getD b dfltP) ≤ key (full.getD j dfltP) := by
              rw [← hp]
              rw [← hp] at harrj
              rcases not_and_or.mp hc with hna | hnlt
              · exact absurd harrj hna
              · omega
            exact ⟨hple, fun hjb => absurd (by omega : ¬ j < b) (fun hn => hn hjb)⟩
  
/-- C3 amended: at every selection, the scan `goSelect` (used by
`SJFSchedule` with key `remainingBurst[pid]` and by
`SJFPrioritySchedule` with key `Priority`) starts with index `0` as
default candidate and replaces it only by arrived processes with
strictly smaller key.  Consequently, whenever the process at index `0`
of the current working list has itself arrived, it selects an arrived
process whose key is minimal among all arrived processes, with ties
broken in favour of the first such process in the list's current order.
(When index `0` has not arrived, the unarrived default may be selected
instead — see the counterexample.) -/
theorem goSelect_first_min_of_head_arrived (key : Process → Int) (t : Int)
    (ps : List Process) (hne : ps ≠ [])
    (hhead : (ps.getD 0 dfltP).ArrivalTime ≤ t) :
    goSelect key t ps < ps.length ∧
    (ps.getD (goSelect key t ps) dfltP).ArrivalTime ≤ t ∧
    ∀ j, j < ps.length → (ps.getD j dfltP).ArrivalTime ≤ t →
      key (ps.getD (goSelect key t ps) dfltP) ≤ key (ps.getD j dfltP) ∧
      (j < goSelect key t ps →
        key (ps.getD (goSelect key t ps) dfltP) < key (ps.getD j dfltP)) := by
  have h0 : 0 < ps.length := List.length_pos.mpr hne
  have hinv : SelInv key t ps 0 0 :=
    ⟨h0, le_rfl, hhead, fun j hj => absurd hj (Nat.not_lt_zero j)⟩
  have hspec := goSelectFrom_spec key t ps ps 0 0
    (by intro k _; rw [Nat.zero_add]) (Nat.zero_add _) hinv
  obtain ⟨h1, _, h3, h4⟩ := hspec
  exact ⟨h1, h3, h4⟩

theorem goSelect_first_min_of_head_arrived_witness :
    (([⟨1, 0, 2, 5⟩, ⟨2, 0, 3, 1⟩] : List Process) ≠ []) ∧
    ((([⟨1, 0, 2, 5⟩, ⟨2, 0, 3, 1⟩] : List Process).getD 0 dfltP).ArrivalTime ≤ 0) ∧
    (([⟨1, 0, 2, 5⟩, ⟨2, 0, 3, 1⟩] : List Process).getD
        (goSelect (fun p => p.Priority) 0 [⟨1, 0, 2, 5⟩, ⟨2, 0, 3, 1⟩]) dfltP).Priority ≤
      (([⟨1, 0, 2, 5⟩, ⟨2, 0, 3, 1⟩] : List Process).getD 0 dfltP).Priority :=
  ⟨by decide, by decide,
    ((goSelect_first_min_of_head_arrived (fun p => p.Priority) 0
        [⟨1, 0, 2, 5⟩, ⟨2, 0, 3, 1⟩] (by decide) (by decide)).2.2 0 (by decide)
      (by decide)).1⟩

end Sched

namespace Sched

/-! ## C10: the remaining-burst map holds original bursts for every
pending process -/

theorem initRB_not_mem :
    ∀ (ps : List Process) (base : Int → Int) (k : Int), k ∉ ps.map Process.ProcessID →
      ps.foldl (fun m p => mapSet m p.ProcessID p.BurstDuration) base k = base k := by
  intro ps
  induction ps with
  | nil => intro base k _; rfl
  | cons p rest ih =>
      intro base k hk
      simp only [List.map_cons, List.mem_cons, not_or] at hk
      rw [List.foldl_cons, ih _ k hk.2]
      simp [mapSet, hk.1]

theorem initRB_mem :
    ∀ (ps : List Process) (base : Int → Int) (p : Process),
      (ps.map Process.ProcessID).Nodup → p ∈ ps →
      ps.foldl (fun m q => mapSet m q.ProcessID q.BurstDuration) base p.ProcessID
        = p.BurstDuration := by
  intro ps
  induction ps with
  | nil => intro base p _ hp; simp at hp
  | cons q rest ih =>
      intro base p hnd hp
      simp only [List.map_cons, List.nodup_cons] at hnd
      rw [List.foldl_cons]
      rcases List.mem_cons.mp hp with rfl | hp'
      · rw [initRB_not_mem rest _ _ hnd.1]
        simp [mapSet]
      · exact ih _ p hnd.2 hp'

theorem pid_ne_of_mem_eraseIdx :
    ∀ (l : List Process) (i : Nat), (l.map Process.ProcessID).Nodup → i < l.length →
      ∀ p ∈ l.eraseIdx i, p.ProcessID ≠ (l.getD i dfltP).ProcessID := by
  intro l
  induction l with
  | nil => intro i _ hi; simp at hi
  | cons a rest ih =>
      intro i hnd hi p hp
      simp only [List.map_cons, List.nodup_cons] at hnd
      cases i with
      | zero =>
          rw [List.getD_cons_zero]
          rw [List.eraseIdx_cons_zero] at hp
          intro hc
          apply hnd.1
          rw [← hc]
          exact List.mem_map_of_mem Process.ProcessID hp
      | succ i =>
          rw [List.getD_cons_succ]
          rw [List.eraseIdx_cons_succ] at hp
          rcases List.mem_cons.mp hp with rfl | hp'
          · intro hc
            apply hnd.1
            rw [hc]
            have hmem : rest.getD i dfltP ∈ rest :=
              getD_mem_of_lt rest dfltP (by simpa using Nat.lt_of_succ_lt_succ hi)
            exact List.mem_map_of_mem Process.ProcessID hmem
          · exact ih i hnd.2 (Nat.lt_of_succ_lt_succ hi) p hp'

theorem nodup_pid_eraseIdx (l : List Process) (i : Nat)
    (h : (l.map Process.ProcessID).Nodup) :
    ((l.eraseIdx i).map Process.ProcessID).Nodup :=
  ((List.eraseIdx_sublist l i).map Process.ProcessID).nodup h

theorem schedStep_rb_inv (u : Bool) (st : SchedState)
    (hnd : (st.copyProcesses.map Process.ProcessID).Nodup)
    (hrb : ∀ p ∈ st.copyProcesses, st.rb p.ProcessID = p.BurstDuration)
    (hne : st.copyProcesses ≠ []) :
    ((schedStep u st).copyProcesses.map Process.ProcessID).Nodup ∧
    ∀ p ∈ (schedStep u st).copyProcesses,
      (schedStep u st).rb p.ProcessID = p.BurstDuration := by
  have hidx : goSelect (schedKey u st.rb) st.serviceTime st.copyProcesses
      < st.copyProcesses.length := goSelect_lt_length _ _ _ hne
  constructor
  · rw [schedStep_copy]
    exact nodup_pid_eraseIdx _ _ hnd
  · intro p hp
    rw [schedStep_copy] at hp
    have hpne : p.ProcessID ≠
        (st.copyProcesses.getD (goSelect (schedKey u st.rb) st.serviceTime st.copyProcesses)
          dfltP).ProcessID :=
      pid_ne_of_mem_eraseIdx _ _ hnd hidx p hp
    show mapDel st.rb
        (st.copyProcesses.getD (goSelect (schedKey u st.rb) st.serviceTime st.copyProcesses)
          dfltP).ProcessID p.ProcessID = p.BurstDuration
    rw [mapDel, if_neg hpne]
    exact hrb p (List.Sublist.subset (List.eraseIdx_sublist _ _) hp)

theorem schedLoop_rb_inv (u : Bool) :
    ∀ (fuel : Nat) (st : SchedState),
      (st.copyProcesses.map Process.ProcessID).Nodup →
      (∀ p ∈ st.copyProcesses, st.rb p.ProcessID = p.BurstDuration) →
      ((schedLoop u fuel st).copyProcesses.map Process.ProcessID).Nodup ∧
      ∀ p ∈ (schedLoop u fuel st).copyProcesses,
        (schedLoop u fuel st).rb p.ProcessID = p.BurstDuration := by
  intro fuel
  induction fuel with
  | zero => intro st hnd hrb; exact ⟨hnd, hrb⟩
  | succ fuel ih =>
      intro st hnd hrb
      have hunf : schedLoop u (fuel + 1) st =
          if st.copyProcesses.isEmpty then st else schedLoop u fuel (schedStep u st) := rfl
      rw [hunf]
      by_cases he : st.copyProcesses.isEmpty
      · rw [if_pos he]
        exact ⟨hnd, hrb⟩
      · rw [if_neg he]
        have hne : st.copyProcesses ≠ [] := fun hc => he (by simp [hc])
        obtain ⟨hnd', hrb'⟩ := schedStep_rb_inv u st hnd hrb hne
        exact ih _ hnd' hrb'

theorem goSelectFrom_congr (k1 k2 : Process → Int) (t : Int) (full : List Process)
    (hkey : ∀ p ∈ full, k1 p = k2 p) :
    ∀ (suffix : List Process) (i b : Nat),
      (∀ k, k < suffix.length → suffix.getD k dfltP = full.getD (i + k) dfltP) →
      i + suffix.length = full.length → b < full.length →
      goSelectFrom k1 t full suffix i b = goSelectFrom k2 t full suffix i b := by
  intro suffix
  induction suffix with
  | nil => intro i b _ _ _; rfl
  | cons p rest ih =>
      intro i b hcorr hlen hb
      have hi : i < full.length := by
        simp only [List.length_cons] at hlen
        omega
      have hp : p = full.getD i dfltP := by
        simpa using hcorr 0 (by simp)
      have hpmem : p ∈ full := by
        rw [hp]
        exact getD_mem_of_lt full dfltP hi
      have hbmem : full.getD b dfltP ∈ full := getD_mem_of_lt full dfltP hb
      have hcond : (p.ArrivalTime ≤ t ∧ k1 p < k1 (full.getD b dfltP)) ↔
          (p.ArrivalTime ≤ t ∧ k2 p < k2 (full.getD b dfltP)) := by
        rw [hkey p hpmem, hkey _ hbmem]
      simp only [goSelectFrom]
      rw [if_congr hcond rfl rfl]
      apply ih (i + 1)
      · intro k hk
        have h2 := hcorr (k + 1) (by simp only [List.length_cons]; omega)
        rw [List.getD_cons_succ] at h2
        have harith : i + (k + 1) = i + 1 + k := by omega
        rwa [harith] at h2
      · simp only [List.length_cons] at hlen
        omega
      · split
        · exact hi
        · exact hb

theorem goSelect_congr (k1 k2 : Process → Int) (t : Int) (ps : List Process)
    (hkey : ∀ p ∈ ps, k1 p = k2 p) : goSelect k1 t ps = goSelect k2 t ps := by
  by_cases hps : ps = []
  · subst hps
    rfl
  · exact goSelectFrom_congr k1 k2 t ps hkey ps 0 0
      (by intro k _; rw [Nat.zero_add]) (Nat.zero_add _) (List.length_pos.mpr hps)

/-- C10: in `SJFSchedule` (`u = true`) and `SJFPrioritySchedule`
(`u = false`), for unique process ids, at every point of the run the
`remainingBurst` entry of every process still in the working list
equals that process's original `BurstDuration` — the map is only
initialised and (for the selected process) deleted, never decremented —
so selecting by smallest remaining burst coincides with selecting by
smallest original burst. -/
theorem remaining_burst_invariant (u : Bool) (ps : List Process)
    (hnd : (ps.map Process.ProcessID).Nodup) (k : Nat) :
    (∀ p ∈ (schedLoop u k (schedInit ps)).copyProcesses,
      (schedLoop u k (schedInit ps)).rb p.ProcessID = p.BurstDuration) ∧
    goSelect (fun p => (schedLoop u k (schedInit ps)).rb p.ProcessID)
        (schedLoop u k (schedInit ps)).serviceTime
        (schedLoop u k (schedInit ps)).copyProcesses =
      goSelect (fun p => p.BurstDuration)
        (schedLoop u k (schedInit ps)).serviceTime
        (schedLoop u k (schedInit ps)).copyProcesses := by
  have hinit : ∀ p ∈ (schedInit ps).copyProcesses,
      (schedInit ps).rb p.ProcessID = p.BurstDuration := by
    intro p hp
    exact initRB_mem ps _ p hnd hp
  obtain ⟨_, hrb⟩ := schedLoop_rb_inv u k (schedInit ps) hnd hinit
  exact ⟨hrb, goSelect_congr _ _ _ _ (fun p hp => hrb p hp)⟩

theorem remaining_burst_invariant_witness :
    ((([⟨1, 0, 2, 0⟩, ⟨2, 0, 3, 0⟩] : List Process).map Process.ProcessID).Nodup) ∧
    ((⟨2, 0, 3, 0⟩ : Process) ∈
      (schedLoop true 1 (schedInit [⟨1, 0, 2, 0⟩, ⟨2, 0, 3, 0⟩])).copyProcesses) ∧
    ((schedLoop true 1 (schedInit [⟨1, 0, 2, 0⟩, ⟨2, 0, 3, 0⟩])).rb
        (⟨2, 0, 3, 0⟩ : Process).ProcessID = (⟨2, 0, 3, 0⟩ : Process).BurstDuration) ∧
    (goSelect (fun p => (schedLoop true 1 (schedInit [⟨1, 0, 2, 0⟩, ⟨2, 0, 3, 0⟩])).rb
          p.ProcessID)
        (schedLoop true 1 (schedInit [⟨1, 0, 2, 0⟩, ⟨2, 0, 3, 0⟩])).serviceTime
        (schedLoop true 1 (schedInit [⟨1, 0, 2, 0⟩, ⟨2, 0, 3, 0⟩])).copyProcesses =
      goSelect (fun p => p.BurstDuration)
        (schedLoop true 1 (schedInit [⟨1, 0, 2, 0⟩, ⟨2, 0, 3, 0⟩])).serviceTime
        (schedLoop true 1 (schedInit [⟨1, 0, 2, 0⟩, ⟨2, 0, 3, 0⟩])).copyProcesses) :=
  ⟨by decide, by decide,
    (remaining_burst_invariant true [⟨1, 0, 2, 0⟩, ⟨2, 0, 3, 0⟩] (by decide) 1).1
      ⟨2, 0, 3, 0⟩ (by decide),
    (remaining_burst_invariant true [⟨1, 0, 2, 0⟩, ⟨2, 0, 3, 0⟩] (by decide) 1).2⟩

end Sched

namespace Sched

/-! ## C6 amended: the exact Round-Robin profile on one arrival-zero
process -/

theorem rrSingleState_zero (b : Nat) (hb : 0 < b) :
    rrInit [rrSingleP b] = rrSingleState b 0 := by
  apply SchedState.ext
  · rfl
  · rfl
  · rfl
  · rfl
  · rfl
  · show List.replicate 1 dfltRow = [if 0 = 0 then dfltRow else _]
    rfl
  · rfl
  · funext x
    show mapSet (fun _ => 0) (rrSingleP b).ProcessID (rrSingleP b).BurstDuration x =
      if x = 1 then (b : Int) - ((0 : Nat) : Int) else 0
    simp [mapSet, rrSingleP]
  · show [rrSingleP b] = if 0 < b then [rrSingleP b] else []
    rw [if_pos hb]
  · rfl

theorem rrSingle_step (b k : Nat) (hk : k < b) :
    rrScan 1 (rrSingleState b k) = rrSingleState b (k + 1) := by
  have hcopy : (rrSingleState b k).copyProcesses = [rrSingleP b] := by
    simp [rrSingleState, hk]
  have hgetD : (rrSingleState b k).copyProcesses.getD 0 dfltP = rrSingleP b := by
    rw [hcopy]
    rfl
  have harr : (rrSingleP b).ArrivalTime ≤ (rrSingleState b k).serviceTime := by
    show (0 : Int) ≤ (k : Int)
    exact Int.ofNat_nonneg k
  have hrb : (rrSingleState b k).rb (rrSingleP b).ProcessID = (b : Int) - (k : Int) := by
    show (if (1 : Int) = 1 then (b : Int) - (k : Int) else 0) = (b : Int) - (k : Int)
    rw [if_pos rfl]
  have hmin : goMin ((b : Int) - (k : Int)) 1 = 1 := by
    unfold goMin
    rw [if_neg (by omega)]
  have hrbafter : (rrSlice 1 (rrSingleState b k) 0).rb (rrSingleP b).ProcessID =
      (b : Int) - (k : Int) - 1 := by
    show mapSet (rrSingleState b k).rb
        ((rrSingleState b k).copyProcesses.getD 0 dfltP).ProcessID
        ((rrSingleState b k).rb ((rrSingleState b k).copyProcesses.getD 0 dfltP).ProcessID -
          goMin ((rrSingleState b k).rb
            ((rrSingleState b k).copyProcesses.getD 0 dfltP).ProcessID) 1)
        (rrSingleP b).ProcessID = (b : Int) - (k : Int) - 1
    rw [hgetD, hrb, hmin, mapSet]
    rw [if_pos rfl]
  have hwait : (rrSlice 1 (rrSingleState b k) 0).waitingTime = (k : Int) := by
    show (if (rrSlice 1 (rrSingleState b k) 0).rb
          ((rrSingleState b k).copyProcesses.getD 0 dfltP).ProcessID = 0
        then (rrSingleState b k).serviceTime + 1 -
          ((rrSingleState b k).copyProcesses.getD 0 dfltP).ArrivalTime -
          goMin ((rrSingleState b k).rb
            ((rrSingleState b k).copyProcesses.getD 0 dfltP).ProcessID) 1
        else (rrSingleState b k).serviceTime -
          ((rrSingleState b k).copyProcesses.getD 0 dfltP).ArrivalTime) = (k : Int)
    rw [hgetD, hrb, hmin, hrbafter]
    split
    · show (k : Int) + 1 - 0 - 1 = (k : Int)
      ring
    · show (k : Int) - 0 = (k : Int)
      ring
  have hslice : rrSlice 1 (rrSingleState b k) 0 =
      { serviceTime := (k : Int) + 1
        totalWait := triangle k + (k : Int)
        totalTurnaround := triangleT k + ((k : Int) + 1)
        lastCompletion := (k : Int) + 1
        waitingTime := (k : Int)
        schedule := [⟨1, 0, (b : Int), 0, (k : Int), (k : Int) + 1, (k : Int) + 1⟩]
        gantt := (List.range k).map (fun j : Nat => ⟨1, 2 * (j : Int), 3 * (j : Int) + 1⟩) ++
          [⟨1, (k : Int) + (k : Int), (k : Int) + (k : Int) + ((k : Int) + 1)⟩]
        rb := fun x => if x = 1 then (b : Int) - (k : Int) - 1 else 0
        copyProcesses := if k < b then [rrSingleP b] else []
        caller := [rrSingleP b] } := by
    apply SchedState.ext
    · rfl
    · show (rrSingleState b k).totalWait + (rrSlice 1 (rrSingleState b k) 0).waitingTime =
        triangle k + (k : Int)
      rw [hwait]
      rfl
    · show (rrSingleState b k).totalTurnaround +
          ((rrSlice 1 (rrSingleState b k) 0).waitingTime +
            goMin ((rrSingleState b k).rb
              ((rrSingleState b k).copyProcesses.getD 0 dfltP).ProcessID) 1) =
        triangleT k + ((k : Int) + 1)
      rw [hwait, hgetD, hrb, hmin]
      rfl
    · rfl
    · exact hwait
    · show (rrSingleState b k).schedule.set (1 - (rrSingleState b k).copyProcesses.length)
          ⟨((rrSingleState b k).copyProcesses.getD 0 dfltP).ProcessID,
            ((rrSingleState b k).copyProcesses.getD 0 dfltP).Priority,
            ((rrSingleState b k).copyProcesses.getD 0 dfltP).BurstDuration,
            ((rrSingleState b k).copyProcesses.getD 0 dfltP).ArrivalTime,
            (rrSlice 1 (rrSingleState b k) 0).waitingTime,
            (rrSlice 1 (rrSingleState b k) 0).waitingTime +
              goMin ((rrSingleState b k).rb
                ((rrSingleState b k).copyProcesses.getD 0 dfltP).ProcessID) 1,
            (rrSingleState b k).serviceTime + 1⟩ =
        [⟨1, 0, (b : Int), 0, (k : Int), (k : Int) + 1, (k : Int) + 1⟩]
      rw [hwait, hgetD, hrb, hmin, hcopy]
      rfl
    · show (rrSingleState b k).gantt ++
          [⟨((rrSingleState b k).copyProcesses.getD 0 dfltP).ProcessID,
            (rrSingleState b k).serviceTime + (rrSlice 1 (rrSingleState b k) 0).waitingTime,
            (rrSingleState b k).serviceTime + (rrSlice 1 (rrSingleState b k) 0).waitingTime +
              ((rrSlice 1 (rrSingleState b k) 0).waitingTime +
                goMin ((rrSingleState b k).rb
                  ((rrSingleState b k).copyProcesses.getD 0 dfltP).ProcessID) 1)⟩] =
        (List.range k).map (fun j : Nat => ⟨1, 2 * (j : Int), 3 * (j : Int) + 1⟩) ++
          [⟨1, (k : Int) + (k : Int), (k : Int) + (k : Int) + ((k : Int) + 1)⟩]
      rw [hwait, hgetD, hrb, hmin]
      rfl
    · funext x
      show mapSet (rrSingleState b k).rb
          ((rrSingleState b k).copyProcesses.getD 0 dfltP).ProcessID
          ((rrSingleState b k).rb ((rrSingleState b k).copyProcesses.getD 0 dfltP).ProcessID -
            goMin ((rrSingleState b k).rb
              ((rrSingleState b k).copyProcesses.getD 0 dfltP).ProcessID) 1) x =
        if x = 1 then (b : Int) - (k : Int) - 1 else 0
      rw [hgetD, hrb, hmin]
      show (if x = (1 : Int) then (b : Int) - (k : Int) - 1
          else (rrSingleState b k).rb x) =
        if x = 1 then (b : Int) - (k : Int) - 1 else 0
      by_cases hx : x = (1 : Int)
      · rw [if_pos hx, if_pos hx]
      · rw [if_neg hx, if_neg hx]
        show (if x = 1 then (b : Int) - (k : Int) else 0) = 0
        rw [if_neg hx]
    · show (rrSingleState b k).copyProcesses = if k < b then [rrSingleP b] else []
      rw [hcopy, if_pos hk]
    · rfl
  have hunf : rrScanGo 1 [0] (rrSingleState b k) =
      if ((rrSingleState b k).copyProcesses.getD 0 dfltP).ArrivalTime ≤
          (rrSingleState b k).serviceTime then
        if (rrSlice 1 (rrSingleState b k) 0).rb
            ((rrSingleState b k).copyProcesses.getD 0 dfltP).ProcessID = 0 then
          { rrSlice 1 (rrSingleState b k) 0 with
            copyProcesses := (rrSingleState b k).copyProcesses.eraseIdx 0 }
        else rrScanGo 1 [] (rrSlice 1 (rrSingleState b k) 0)
      else rrScanGo 1 [] (rrSingleState b k) := rfl
  have hscan : rrScan 1 (rrSingleState b k) = rrScanGo 1 [0] (rrSingleState b k) := by
    unfold rrScan
    rw [hcopy]
    rfl
  rw [hscan, hunf, hgetD, if_pos harr, hrbafter]
  by_cases hkb : k + 1 = b
  · rw [if_pos (by omega)]
    apply SchedState.ext
    · show (rrSlice 1 (rrSingleState b k) 0).serviceTime = (rrSingleState b (k + 1)).serviceTime
      rw [hslice]
      show (k : Int) + 1 = ((k + 1 : Nat) : Int)
      push_cast
      ring
    · show (rrSlice 1 (rrSingleState b k) 0).totalWait = (rrSingleState b (k + 1)).totalWait
      rw [hslice]
      show triangle k + (k : Int) = triangle (k + 1)
      rfl
    · show (rrSlice 1 (rrSingleState b k) 0).totalTurnaround =
        (rrSingleState b (k + 1)).totalTurnaround
      rw [hslice]
      show triangleT k + ((k : Int) + 1) = triangleT (k + 1)
      show triangleT k + ((k : Int) + 1) = triangleT k + ((k : Nat) + 1 : Nat)
      push_cast
      ring
    · show (rrSlice 1 (rrSingleState b k) 0).lastCompletion =
        (rrSingleState b (k + 1)).lastCompletion
      rw [hslice]
      show (k : Int) + 1 = ((k + 1 : Nat) : Int)
      push_cast
      ring
    · show (rrSlice 1 (rrSingleState b k) 0).waitingTime =
        (rrSingleState b (k + 1)).waitingTime
      rw [hslice]
      show (k : Int) = if k + 1 = 0 then 0 else ((k + 1 : Nat) : Int) - 1
      rw [if_neg (Nat.succ_ne_zero k)]
      push_cast
      ring
    · show (rrSlice 1 (rrSingleState b k) 0).schedule = (rrSingleState b (k + 1)).schedule
      rw [hslice]
      show [(⟨1, 0, (b : Int), 0, (k : Int), (k : Int) + 1, (k : Int) + 1⟩ : Row)] =
        [if k + 1 = 0 then dfltRow else
          ⟨1, 0, (b : Int), 0, ((k + 1 : Nat) : Int) - 1, ((k + 1 : Nat) : Int),
            ((k + 1 : Nat) : Int)⟩]
      rw [if_neg (Nat.succ_ne_zero k)]
      have h1 : ((k + 1 : Nat) : Int) - 1 = (k : Int) := by push_cast; ring
      have h2 : ((k + 1 : Nat) : Int) = (k : Int) + 1 := by push_cast; ring
      rw [h1, h2]
    · show (rrSlice 1 (rrSingleState b k) 0).gantt = (rrSingleState b (k + 1)).gantt
      rw [hslice]
      show (List.range k).map (fun j : Nat => (⟨1, 2 * (j : Int), 3 * (j : Int) + 1⟩ : TimeSlice)) ++
          [⟨1, (k : Int) + (k : Int), (k : Int) + (k : Int) + ((k : Int) + 1)⟩] =
        (List.range (k + 1)).map (fun j : Nat => ⟨1, 2 * (j : Int), 3 * (j : Int) + 1⟩)
      rw [List.range_succ, List.map_append]
      congr 1
      show [(⟨1, (k : Int) + (k : Int), (k : Int) + (k : Int) + ((k : Int) + 1)⟩ : TimeSlice)] =
        [⟨1, 2 * (k : Int), 3 * (k : Int) + 1⟩]
      have h1 : (k : Int) + (k : Int) = 2 * (k : Int) := by ring
      rw [h1]
      have h2 : 2 * (k : Int) + ((k : Int) + 1) = 3 * (k : Int) + 1 := by ring
      rw [h2]
    · show (rrSlice 1 (rrSingleState b k) 0).rb = (rrSingleState b (k + 1)).rb
      rw [hslice]
      funext x
      show (if x = 1 then (b : Int) - (k : Int) - 1 else 0) =
        if x = 1 then (b : Int) - ((k + 1 : Nat) : Int) else 0
      have h1 : (b : Int) - (k : Int) - 1 = (b : Int) - ((k + 1 : Nat) : Int) := by
        push_cast
        ring
      rw [h1]
    · show (rrSingleState b k).copyProcesses.eraseIdx 0 =
        (rrSingleState b (k + 1)).copyProcesses
      rw [hcopy]
      show ([] : List Process) = if k + 1 < b then [rrSingleP b] else []
      rw [if_neg (by omega)]
    · show (rrSlice 1 (rrSingleState b k) 0).caller = (rrSingleState b (k + 1)).caller
      rw [hslice]
      rfl
  · rw [if_neg (by omega)]
    show rrSlice 1 (rrSingleState b k) 0 = rrSingleState b (k + 1)
    rw [hslice]
    apply SchedState.ext
    · show (k : Int) + 1 = ((k + 1 : Nat) : Int)
      push_cast
      ring
    · show triangle k + (k : Int) = triangle (k + 1)
      rfl
    · show triangleT k + ((k : Int) + 1) = triangleT (k + 1)
      show triangleT k + ((k : Int) + 1) = triangleT k + ((k : Nat) + 1 : Nat)
      push_cast
      ring
    · show (k : Int) + 1 = ((k + 1 : Nat) : Int)
      push_cast
      ring
    · show (k : Int) = if k + 1 = 0 then 0 else ((k + 1 : Nat) : Int) - 1
      rw [if_neg (Nat.succ_ne_zero k)]
      push_cast
      ring
    · show [(⟨1, 0, (b : Int), 0, (k : Int), (k : Int) + 1, (k : Int) + 1⟩ : Row)] =
        [if k + 1 = 0 then dfltRow else
          ⟨1, 0, (b : Int), 0, ((k + 1 : Nat) : Int) - 1, ((k + 1 : Nat) : Int),
            ((k + 1 : Nat) : Int)⟩]
      rw [if_neg (Nat.succ_ne_zero k)]
      have h1 : ((k + 1 : Nat) : Int) - 1 = (k : Int) := by push_cast; ring
      have h2 : ((k + 1 : Nat) : Int) = (k : Int) + 1 := by push_cast; ring
      rw [h1, h2]
    · show (List.range k).map (fun j : Nat => (⟨1, 2 * (j : Int), 3 * (j : Int) + 1⟩ : TimeSlice)) ++
          [⟨1, (k : Int) + (k : Int), (k : Int) + (k : Int) + ((k : Int) + 1)⟩] =
        (List.range (k + 1)).map (fun j : Nat => ⟨1, 2 * (j : Int), 3 * (j : Int) + 1⟩)
      rw [List.range_succ, List.map_append]
      congr 1
      have h1 : (k : Int) + (k : Int) = 2 * (k : Int) := by ring
      rw [h1]
      have h2 : 2 * (k : Int) + ((k : Int) + 1) = 3 * (k : Int) + 1 := by ring
      rw [h2]
      rfl
    · funext x
      show (if x = 1 then (b : Int) - (k : Int) - 1 else 0) =
        if x = 1 then (b : Int) - ((k + 1 : Nat) : Int) else 0
      have h1 : (b : Int) - (k : Int) - 1 = (b : Int) - ((k + 1 : Nat) : Int) := by
        push_cast
        ring
      rw [h1]
    · show (if k < b then [rrSingleP b] else []) = if k + 1 < b then [rrSingleP b] else []
      rw [if_pos hk, if_pos (by omega)]
    · rfl


theorem rrSingle_loop (b : Nat) :
    ∀ (f k : Nat), k ≤ b → b ≤ k + f →
      rrLoop 1 f (rrSingleState b k) = rrSingleState b b := by
  intro f
  induction f with
  | zero =>
      intro k hk1 hk2
      have hkb : k = b := by omega
      rw [hkb]
      rfl
  | succ f ih =>
      intro k hk1 hk2
      show (if (rrSingleState b k).copyProcesses.isEmpty then rrSingleState b k
        else rrLoop 1 f (rrScan 1 (rrSingleState b k))) = rrSingleState b b
      by_cases hkb : k = b
      · have hempty : (rrSingleState b k).copyProcesses.isEmpty = true := by
          rw [hkb]
          show (if b < b then [rrSingleP b] else []).isEmpty = true
          rw [if_neg (lt_irrefl b)]
          rfl
        rw [if_pos hempty, hkb]
      · have hk : k < b := by omega
        have hne : ¬ ((rrSingleState b k).copyProcesses.isEmpty = true) := by
          show ¬ ((if k < b then [rrSingleP b] else []).isEmpty = true)
          rw [if_pos hk]
          simp
        rw [if_neg hne, rrSingle_step b k hk]
        exact ih (k + 1) (by omega) (by omega)

/-- C6 amended: Round-Robin on the single process `rrSingleP b`
(`ProcessID 1`, arrival `0`, burst `b > 0`) terminates within `b`
outer passes (the pending list is empty), produces exactly `b` timeline
entries with the claimed `completionTime = b`, but the `j`-th entry
(0-based) spans `[2j, 3j+1]` — width `j + 1`, which is `1` only for the
first entry — and the recorded `waitTime` is `b - 1`, which is `0` only
when `b = 1`. -/
theorem rr_single_process_profile (b : Nat) (hb : 0 < b) (fuel : Nat) (hf : b ≤ fuel) :
    (RRSchedule fuel [rrSingleP b]).rows =
      [⟨1, 0, (b : Int), 0, (b : Int) - 1, (b : Int), (b : Int)⟩] ∧
    (RRSchedule fuel [rrSingleP b]).gantt =
      (List.range b).map (fun j : Nat => ⟨1, 2 * (j : Int), 3 * (j : Int) + 1⟩) ∧
    (RRSchedule fuel [rrSingleP b]).gantt.length = b ∧
    (rrLoop 1 fuel (rrInit [rrSingleP b])).copyProcesses = [] := by
  have hloop : rrLoop 1 fuel (rrInit [rrSingleP b]) = rrSingleState b b := by
    rw [rrSingleState_zero b hb]
    exact rrSingle_loop b fuel 0 (by omega) (by omega)
  have hrows : (RRSchedule fuel [rrSingleP b]).rows =
      [⟨1, 0, (b : Int), 0, (b : Int) - 1, (b : Int), (b : Int)⟩] := by
    show (rrLoop 1 fuel (rrInit [rrSingleP b])).schedule = _
    rw [hloop]
    show [if b = 0 then dfltRow else
        ⟨1, 0, (b : Int), 0, (b : Int) - 1, (b : Int), (b : Int)⟩] = _
    rw [if_neg (by omega)]
  have hgantt : (RRSchedule fuel [rrSingleP b]).gantt =
      (List.range b).map (fun j : Nat => ⟨1, 2 * (j : Int), 3 * (j : Int) + 1⟩) := by
    show (rrLoop 1 fuel (rrInit [rrSingleP b])).gantt = _
    rw [hloop]
    rfl
  refine ⟨hrows, hgantt, ?_, ?_⟩
  · rw [hgantt, List.length_map, List.length_range]
  · rw [hloop]
    show (if b < b then [rrSingleP b] else []) = []
    rw [if_neg (lt_irrefl b)]

theorem rr_single_process_profile_witness :
    (0 < 3) ∧ (3 ≤ 4) ∧
    ((RRSchedule 4 [rrSingleP 3]).rows =
      [⟨1, 0, (3 : Int), 0, (3 : Int) - 1, (3 : Int), (3 : Int)⟩] ∧
    (RRSchedule 4 [rrSingleP 3]).gantt =
      (List.range 3).map (fun j : Nat => ⟨1, 2 * (j : Int), 3 * (j : Int) + 1⟩) ∧
    (RRSchedule 4 [rrSingleP 3]).gantt.length = 3 ∧
    (rrLoop 1 4 (rrInit [rrSingleP 3])).copyProcesses = []) :=
  ⟨by decide, by decide, rr_single_process_profile 3 (by decide) 4 (by decide)⟩

end Sched
